import Mathlib

/-!
Verification of the in-memory chainable query builder (`QueryBuilder`).

Each operator of the source is embedded as a pure Lean function on `List`:
the wrapped item sequence is a `List α`, caller-supplied selectors and
predicates are Lean functions, absent results (`undefined` / `null`) are
`Option`, JS numbers used by the aggregates are modelled as `ℚ`, and the
JS `Map` used by `join` and `toGroup` is an association list whose `set`
overwrites in place and whose iteration follows insertion order.
Instance identity and the in-place mutation performed by `from` are
modelled by an explicit heap of engine instances addressed by handles.
-/

namespace DataSmith

universe u v w x y

variable {α : Type u} {β : Type v} {κ : Type w} {υ : Type x} {γ : Type y}

/-- `where(predicate)` from the source: `this.items.filter(predicate)`. -/
def whereSeq (p : α → Bool) (S : List α) : List α := S.filter p

/-- `select(...keys)` from the source: `this.items.map(item => ...pick keys...)`;
the per-item record construction from the named keys is modelled as the
projection function `proj`. -/
def selectSeq (proj : α → β) (S : List α) : List β := S.map proj

/-- `skip(count)` from the source: `this.items.slice(count)` (count ≥ 0). -/
def skipSeq (count : Nat) (S : List α) : List α := S.drop count

/-- `take(count)` from the source: `this.items.slice(0, count)` (count ≥ 0). -/
def takeSeq (count : Nat) (S : List α) : List α := S.take count

/-- `page(pageIndex, pageSize)` from the source:
`this.skip(pageIndex * pageSize).take(pageSize)`. -/
def pageSeq (pageIndex pageSize : Nat) (S : List α) : List α :=
  takeSeq pageSize (skipSeq (pageIndex * pageSize) S)

/-- The comparator `orderBy` passes to the sort primitive in the source:
`aVal === bVal ? 0 : aVal > bVal ? (descending ? -1 : 1) : (descending ? 1 : -1)`,
where `aVal = a[key]` is modelled as `f a`. -/
def jsCompare [LinearOrder β] (f : α → β) (descending : Bool) (a b : α) : Int :=
  if f a = f b then 0
  else if f a > f b then (if descending then -1 else 1)
  else (if descending then 1 else -1)

/-- `orderBy(key, descending)` from the source: a comparison sort of a copy of
the items by `jsCompare`; an element may precede another exactly when the
comparator does not order it strictly after it. -/
def orderBySeq [LinearOrder β] (f : α → β) (descending : Bool) (S : List α) : List α :=
  S.mergeSort (fun a b => decide (jsCompare f descending a b ≤ 0))

/-- One step of `groupBy`'s reduce from the source: look up the first group
record whose key matches (`groups.find(g => g.key === key)`), push the item
into it, otherwise push a fresh `{key, group: [item]}` record at the end. -/
def groupUpd [DecidableEq κ] (key : κ) (item : α) : List (κ × List α) → List (κ × List α)
  | [] => [(key, [item])]
  | (k, g) :: rest =>
    if k = key then (k, g ++ [item]) :: rest else (k, g) :: groupUpd key item rest

/-- `groupBy(keySelector)` from the source: `this.items.reduce(..., [])` with
`groupUpd` as the step. -/
def groupBySeq [DecidableEq κ] (f : α → κ) (S : List α) : List (κ × List α) :=
  S.foldl (fun gs item => groupUpd (f item) item gs) []

/-- JS `Map.set`: overwrite the entry with the given key in place, keeping its
insertion position, or append a fresh entry at the end. -/
def mapSet [DecidableEq κ] (k : κ) (v : υ) : List (κ × υ) → List (κ × υ)
  | [] => [(k, v)]
  | (k1, v1) :: rest =>
    if k1 = k then (k, v) :: rest else (k1, v1) :: mapSet k v rest

/-- JS `Map.get`: the value stored under the key, if any. -/
def mapGet [DecidableEq κ] (k : κ) (m : List (κ × υ)) : Option υ :=
  (m.find? (fun e => decide (e.1 = k))).map Prod.snd

/-- The lookup `join` builds in the source:
`otherItems.forEach(item => otherItemsMap.set(otherKeySelector(item), item))`. -/
def buildLookup [DecidableEq κ] (gk : υ → κ) (others : List υ) : List (κ × υ) :=
  others.foldl (fun m u => mapSet (gk u) u m) []

/-- `join(other, keySelector, otherKeySelector, resultSelector)` from the
source: map each left item to `resultSelector(item, otherItem)` when the
lookup holds its key and to `undefined` otherwise, then filter the
`undefined` entries out.  (Items are structured records, hence truthy.) -/
def joinSeq [DecidableEq κ] (fk : α → κ) (gk : υ → κ) (res : α → υ → γ)
    (S : List α) (others : List υ) : List γ :=
  (S.map (fun t => (mapGet (fk t) (buildLookup gk others)).map (res t))).filterMap id

/-- The `groupsMap` that `toGroup` builds in the source:
`const group = groupsMap.get(key) || []; group.push(item); groupsMap.set(key, group)`. -/
def toGroupMap [DecidableEq κ] (f : α → κ) (S : List α) : List (κ × List α) :=
  S.foldl (fun m item => mapSet (f item) (((mapGet (f item) m).getD []) ++ [item]) m) []

/-- `toGroup(keySelector, groupSelector)` from the source (the promise wrapper
resolves synchronously and is modelled as the identity): iterate the
`groupsMap` in insertion order, emitting `{key, group: groupSelector(key, group)}`. -/
def toGroupSeq [DecidableEq κ] (f : α → κ) (g : κ → List α → γ) (S : List α) : List (κ × γ) :=
  (toGroupMap f S).map (fun e => (e.1, g e.1 e.2))

/-- `count()` from the source: `this.items.length`. -/
def countQ (S : List α) : Nat := S.length

/-- `sum(key)` from the source:
`this.items.reduce((sum, item) => sum + Number(item[key]), 0)`;
the numeric field access `Number(item[key])` is modelled as `f`. -/
def sumQ (f : α → ℚ) (S : List α) : ℚ := S.foldl (fun s item => s + f item) 0

/-- `avg(key)` from the source: `count === 0 ? 0 : sum / count`. -/
def avgQ (f : α → ℚ) (S : List α) : ℚ :=
  if countQ S = 0 then 0 else sumQ f S / (countQ S : ℚ)

/-- `max(key)` from the source: reduce with a `null` seed, replacing the
candidate exactly when `item[key] > maxItem[key]`. -/
def maxQ [LinearOrder β] (f : α → β) (S : List α) : Option α :=
  S.foldl
    (fun acc item =>
      match acc with
      | none => some item
      | some m => if f m < f item then some item else some m)
    none

/-- `min(key)` from the source: reduce with a `null` seed, replacing the
candidate exactly when `item[key] < minItem[key]`. -/
def minQ [LinearOrder β] (f : α → β) (S : List α) : Option α :=
  S.foldl
    (fun acc item =>
      match acc with
      | none => some item
      | some m => if f item < f m then some item else some m)
    none

/-- `first()` from the source: `this.items[0]` (`undefined` when empty). -/
def firstQ (S : List α) : Option α := S.head?

/-- `last()` from the source: `this.items[this.items.length - 1]`
(`undefined` when empty). -/
def lastQ (S : List α) : Option α := S.getLast?

/-- Specification-side helper: the distinct keys of a list in first-seen
order (used to state the grouping order guarantee). -/
def firstSeen [DecidableEq κ] : List κ → List κ
  | [] => []
  | k :: ks => k :: (firstSeen ks).filter (fun k2 => decide (k2 ≠ k))

/-- Specification-side formulation of the grouping guarantee: one group
record per distinct key in first-seen order, each carrying the subsequence
of items mapped to that key. -/
def canonGroups [DecidableEq κ] (f : α → κ) (S : List α) : List (κ × List α) :=
  (firstSeen (S.map f)).map (fun k => (k, S.filter (fun x => decide (f x = k))))

/-- A concrete record type with one numeric field, matching the records of
the repository's examples (`{age: 25}` and the like). -/
structure AgeRec where
  age : Int
deriving DecidableEq

/-- The non-`null` tail of `max`'s reduce: fold the remaining items with the
current candidate, replacing it exactly on a strictly greater field value. -/
def runMax [LinearOrder β] (f : α → β) (x : α) (ys : List α) : α :=
  ys.foldl (fun b y => if f b < f y then y else b) x

/-- The non-`null` tail of `min`'s reduce: fold the remaining items with the
current candidate, replacing it exactly on a strictly smaller field value. -/
def runMin [LinearOrder β] (f : α → β) (x : α) (ys : List α) : α :=
  ys.foldl (fun b y => if f y < f b then y else b) x

/-- The store of engine instances: handle `h` names the `h`-th allocated
engine instance, the entry being its wrapped item sequence. -/
abbrev Heap (α : Type u) : Type u := List (List α)

/-- Length of a heap (number of allocated engine instances). -/
def Heap.size (s : Heap α) : Nat := List.length s

/-- The wrapped sequence (`this.items`) of the engine named by handle `h`. -/
def readItems (s : Heap α) (h : Nat) : List α := List.getD s h []

/-- Constructor call `new QueryBuilder(xs)`: allocate a fresh engine
instance wrapping `xs` and hand back the store and the fresh handle. -/
def newEngine (s : Heap α) (xs : List α) : Heap α × Nat :=
  (List.append s [xs], Heap.size s)

/-- The operator `from(items)` from the source:
`this.items = items; return this` — overwrite the receiver's sequence in
place and return the receiver's own handle. -/
def fromOp (s : Heap α) (h : Nat) (items : List α) : Heap α × Nat :=
  (List.set s h items, h)

/-- The operator `select` on the store: `new QueryBuilder(selectedItems)`. -/
def selectOp (s : Heap α) (h : Nat) (t : Heap γ) (proj : α → γ) : Heap γ × Nat :=
  newEngine t (selectSeq proj (readItems s h))

/-- The operator `where` on the store: `new QueryBuilder(filteredItems)`. -/
def whereOp (s : Heap α) (h : Nat) (p : α → Bool) : Heap α × Nat :=
  newEngine s (whereSeq p (readItems s h))

/-- The operator `orderBy` on the store: `new QueryBuilder(sortedItems)`
(the receiver is sorted on a copy, `this.items.slice().sort(...)`). -/
def orderByOp [LinearOrder β] (s : Heap α) (h : Nat) (f : α → β)
    (descending : Bool) : Heap α × Nat :=
  newEngine s (orderBySeq f descending (readItems s h))

/-- The operator `skip` on the store: `new QueryBuilder(skippedItems)`. -/
def skipOp (s : Heap α) (h : Nat) (c : Nat) : Heap α × Nat :=
  newEngine s (skipSeq c (readItems s h))

/-- The operator `take` on the store: `new QueryBuilder(takenItems)`. -/
def takeOp (s : Heap α) (h : Nat) (c : Nat) : Heap α × Nat :=
  newEngine s (takeSeq c (readItems s h))

/-- The operator `page` on the store: exactly
`this.skip(pageIndex * pageSize).take(pageSize)`, so it allocates the
intermediate `skip` engine and then the `take` engine. -/
def pageOp (s : Heap α) (h : Nat) (pageIndex pageSize : Nat) : Heap α × Nat :=
  takeOp (skipOp s h (pageIndex * pageSize)).1
    (skipOp s h (pageIndex * pageSize)).2 pageSize

/-- The operator `groupBy` on the store: a fresh engine of group records. -/
def groupByOp [DecidableEq κ] (s : Heap α) (h : Nat) (t : Heap (κ × List α))
    (f : α → κ) : Heap (κ × List α) × Nat :=
  newEngine t (groupBySeq f (readItems s h))

/-- The operator `join` on the store: a fresh engine of joined records. -/
def joinOp [DecidableEq κ] (s : Heap α) (h : Nat) (t : Heap γ) (fk : α → κ)
    (gk : υ → κ) (res : α → υ → γ) (others : List υ) : Heap γ × Nat :=
  newEngine t (joinSeq fk gk res (readItems s h) others)

end DataSmith

namespace DataSmith

/-- C4: `where(P).toArray()` is a subsequence of `S`, every element of it
satisfies `P`, and no element of `S` satisfying `P` is dropped (even
counting multiplicity). -/
theorem where_filters_exactly (p : α → Bool) (S : List α) [DecidableEq α] :
    (whereSeq p S).Sublist S ∧
    (∀ x ∈ whereSeq p S, p x = true) ∧
    (∀ x ∈ S, p x = true → x ∈ whereSeq p S) ∧
    (∀ x, p x = true → (whereSeq p S).count x = S.count x) := by
  refine ⟨List.filter_sublist S, ?_, ?_, ?_⟩
  · intro x hx
    exact (List.mem_filter.mp hx).2
  · intro x hx hpx
    exact List.mem_filter.mpr ⟨hx, hpx⟩
  · intro x hpx
    exact List.count_filter hpx

/-- C6: `page(pageIndex, pageSize)` yields exactly
`skip(pageIndex * pageSize).take(pageSize)`, and its `j`-th element is the
`(pageIndex * pageSize + j)`-th element of the input for `j < pageSize`
(zero-based pages). -/
theorem page_eq_skip_take (i n : Nat) (S : List α) :
    pageSeq i n S = takeSeq n (skipSeq (i * n) S) ∧
    ∀ j : Nat, (pageSeq i n S)[j]? = if j < n then S[i * n + j]? else none := by
  refine ⟨rfl, ?_⟩
  intro j
  by_cases hj : j < n
  · simp [pageSeq, takeSeq, skipSeq, List.getElem?_take, List.getElem?_drop, hj]
  · simp [pageSeq, takeSeq, skipSeq, List.getElem?_take, hj]

/-- C8: on a non-empty sequence `avg(key)` is `sum(key) / count()`, on the
empty sequence `avg(key)` is `0` (the division is guarded), and `sum(key)`
of the empty sequence is `0`. -/
theorem avg_eq_sum_div_count (f : α → ℚ) (S : List α) (h : S ≠ []) :
    avgQ f S = sumQ f S / (countQ S : ℚ) ∧
    avgQ f ([] : List α) = 0 ∧
    sumQ f ([] : List α) = 0 := by
  refine ⟨?_, rfl, rfl⟩
  have hlen : countQ S ≠ 0 := by
    simpa [countQ, List.length_eq_zero] using h
  simp [avgQ, hlen]

/-- Witness for `avg_eq_sum_div_count` at the sequence `[1, 2]`. -/
theorem avg_eq_sum_div_count_witness :
    avgQ id [(1 : ℚ), 2] = sumQ id [(1 : ℚ), 2] / (countQ [(1 : ℚ), 2] : ℚ) :=
  (avg_eq_sum_div_count id [(1 : ℚ), 2] (by decide)).1

lemma jsCompare_nonpos_asc [LinearOrder β] (f : α → β) (a b : α) :
    jsCompare f false a b ≤ 0 ↔ f a ≤ f b := by
  unfold jsCompare
  rcases lt_trichotomy (f a) (f b) with h | h | h
  · simp [h.ne, not_lt.mpr h.le, h.le]
  · simp [h]
  · simp [h.ne', h, not_le.mpr h]

lemma jsCompare_nonpos_desc [LinearOrder β] (f : α → β) (a b : α) :
    jsCompare f true a b ≤ 0 ↔ f b ≤ f a := by
  unfold jsCompare
  rcases lt_trichotomy (f a) (f b) with h | h | h
  · simp [h.ne, not_lt.mpr h.le, not_le.mpr h]
  · simp [h, h.symm.le]
  · simp [h.ne', h, h.le]

unseal List.merge List.mergeSort in
/-- C7: both directions of `orderBy` permute the input; ascending sorts the
field values non-decreasingly, `descending=true` reverses every comparison
outcome so field values come out non-increasing; on ages 25, 35, 30 the
descending sort yields 35, 30, 25. -/
theorem orderBy_sorts [LinearOrder β] (f : α → β) (S : List α) :
    List.Perm (orderBySeq f false S) S ∧
    List.Perm (orderBySeq f true S) S ∧
    List.Pairwise (fun a b => f a ≤ f b) (orderBySeq f false S) ∧
    List.Pairwise (fun a b => f b ≤ f a) (orderBySeq f true S) ∧
    orderBySeq AgeRec.age true [⟨25⟩, ⟨35⟩, ⟨30⟩] = [⟨35⟩, ⟨30⟩, ⟨25⟩] := by
  refine ⟨List.mergeSort_perm S _, List.mergeSort_perm S _, ?_, ?_, ?_⟩
  · have htrans : ∀ a b c : α, decide (jsCompare f false a b ≤ 0) = true →
        decide (jsCompare f false b c ≤ 0) = true →
        decide (jsCompare f false a c ≤ 0) = true := by
      intro a b c hab hbc
      simp only [decide_eq_true_eq, jsCompare_nonpos_asc] at hab hbc ⊢
      exact le_trans hab hbc
    have htotal : ∀ a b : α, (decide (jsCompare f false a b ≤ 0) ||
        decide (jsCompare f false b a ≤ 0)) = true := by
      intro a b
      simp only [Bool.or_eq_true, decide_eq_true_eq, jsCompare_nonpos_asc]
      exact le_total (f a) (f b)
    have hp := List.sorted_mergeSort htrans htotal S
    exact hp.imp (fun hab => (jsCompare_nonpos_asc f _ _).mp (by simpa using hab))
  · have htrans : ∀ a b c : α, decide (jsCompare f true a b ≤ 0) = true →
        decide (jsCompare f true b c ≤ 0) = true →
        decide (jsCompare f true a c ≤ 0) = true := by
      intro a b c hab hbc
      simp only [decide_eq_true_eq, jsCompare_nonpos_desc] at hab hbc ⊢
      exact le_trans hbc hab
    have htotal : ∀ a b : α, (decide (jsCompare f true a b ≤ 0) ||
        decide (jsCompare f true b a ≤ 0)) = true := by
      intro a b
      simp only [Bool.or_eq_true, decide_eq_true_eq, jsCompare_nonpos_desc]
      exact le_total (f b) (f a)
    have hp := List.sorted_mergeSort htrans htotal S
    exact hp.imp (fun hab => (jsCompare_nonpos_desc f _ _).mp (by simpa using hab))
  · rfl

lemma runMax_cons [LinearOrder β] (f : α → β) (x y : α) (ys : List α) :
    runMax f x (y :: ys) = runMax f (if f x < f y then y else x) ys := rfl

lemma runMin_cons [LinearOrder β] (f : α → β) (x y : α) (ys : List α) :
    runMin f x (y :: ys) = runMin f (if f y < f x then y else x) ys := rfl

lemma maxQ_cons [LinearOrder β] (f : α → β) (x : α) (ys : List α) :
    maxQ f (x :: ys) = some (runMax f x ys) := by
  induction ys generalizing x with
  | nil => rfl
  | cons y ys ih =>
    have h1 : maxQ f (x :: y :: ys) = maxQ f ((if f x < f y then y else x) :: ys) := by
      by_cases h : f x < f y <;> simp [maxQ, h]
    rw [h1, ih, runMax_cons]

lemma minQ_cons [LinearOrder β] (f : α → β) (x : α) (ys : List α) :
    minQ f (x :: ys) = some (runMin f x ys) := by
  induction ys generalizing x with
  | nil => rfl
  | cons y ys ih =>
    have h1 : minQ f (x :: y :: ys) = minQ f ((if f y < f x then y else x) :: ys) := by
      by_cases h : f y < f x <;> simp [minQ, h]
    rw [h1, ih, runMin_cons]

lemma le_runMax_self [LinearOrder β] (f : α → β) :
    ∀ (ys : List α) (x : α), f x ≤ f (runMax f x ys)
  | [], _ => le_refl _
  | y :: ys, x => by
    rw [runMax_cons]
    by_cases h : f x < f y
    · rw [if_pos h]
      exact le_trans h.le (le_runMax_self f ys y)
    · rw [if_neg h]
      exact le_runMax_self f ys x

lemma runMin_le_self [LinearOrder β] (f : α → β) :
    ∀ (ys : List α) (x : α), f (runMin f x ys) ≤ f x
  | [], _ => le_refl _
  | y :: ys, x => by
    rw [runMin_cons]
    by_cases h : f y < f x
    · rw [if_pos h]
      exact le_trans (runMin_le_self f ys y) h.le
    · rw [if_neg h]
      exact runMin_le_self f ys x

lemma runMax_decomp [LinearOrder β] (f : α → β) :
    ∀ (ys : List α) (x : α), ∃ l1 l2,
      x :: ys = l1 ++ runMax f x ys :: l2 ∧
      (∀ y ∈ l1, f y < f (runMax f x ys)) ∧
      (∀ y ∈ l2, f y ≤ f (runMax f x ys))
  | [], x => ⟨[], [], rfl, by simp, by simp⟩
  | y :: ys, x => by
    rw [runMax_cons]
    by_cases h : f x < f y
    · rw [if_pos h]
      obtain ⟨l1, l2, heq, hlt, hle⟩ := runMax_decomp f ys y
      refine ⟨x :: l1, l2, ?_, ?_, hle⟩
      · rw [List.cons_append, ← heq]
      · intro t ht
        rcases List.mem_cons.mp ht with rfl | ht
        · exact lt_of_lt_of_le h (le_runMax_self f ys y)
        · exact hlt t ht
    · rw [if_neg h]
      obtain ⟨l1, l2, heq, hlt, hle⟩ := runMax_decomp f ys x
      cases l1 with
      | nil =>
        simp only [List.nil_append] at heq
        have hx : x = runMax f x ys := (List.cons.injEq _ _ _ _ ▸ heq).1
        have hys : ys = l2 := (List.cons.injEq _ _ _ _ ▸ heq).2
        refine ⟨[], y :: ys, by rw [← hx]; rfl, by simp, ?_⟩
        intro t ht
        rcases List.mem_cons.mp ht with rfl | ht
        · exact (not_lt.mp h).trans (le_of_eq (congrArg f hx))
        · exact hle t (hys ▸ ht)
      | cons a l1t =>
        simp only [List.cons_append] at heq
        have hxa : x = a := (List.cons.injEq _ _ _ _ ▸ heq).1
        have hys : ys = l1t ++ runMax f x ys :: l2 := (List.cons.injEq _ _ _ _ ▸ heq).2
        have hxlt : f x < f (runMax f x ys) := hxa ▸ hlt a (List.mem_cons_self _ _)
        refine ⟨x :: y :: l1t, l2, ?_, ?_, hle⟩
        · rw [List.cons_append, List.cons_append, ← hys]
        · intro t ht
          rcases List.mem_cons.mp ht with rfl | ht
          · exact hxlt
          rcases List.mem_cons.mp ht with rfl | ht
          · exact lt_of_le_of_lt (not_lt.mp h) hxlt
          · exact hlt t (List.mem_cons_of_mem _ ht)

lemma runMin_decomp [LinearOrder β] (f : α → β) :
    ∀ (ys : List α) (x : α), ∃ l1 l2,
      x :: ys = l1 ++ runMin f x ys :: l2 ∧
      (∀ y ∈ l1, f (runMin f x ys) < f y) ∧
      (∀ y ∈ l2, f (runMin f x ys) ≤ f y)
  | [], x => ⟨[], [], rfl, by simp, by simp⟩
  | y :: ys, x => by
    rw [runMin_cons]
    by_cases h : f y < f x
    · rw [if_pos h]
      obtain ⟨l1, l2, heq, hlt, hle⟩ := runMin_decomp f ys y
      refine ⟨x :: l1, l2, ?_, ?_, hle⟩
      · rw [List.cons_append, ← heq]
      · intro t ht
        rcases List.mem_cons.mp ht with rfl | ht
        · exact lt_of_le_of_lt (runMin_le_self f ys y) h
        · exact hlt t ht
    · rw [if_neg h]
      obtain ⟨l1, l2, heq, hlt, hle⟩ := runMin_decomp f ys x
      cases l1 with
      | nil =>
        simp only [List.nil_append] at heq
        have hx : x = runMin f x ys := (List.cons.injEq _ _ _ _ ▸ heq).1
        have hys : ys = l2 := (List.cons.injEq _ _ _ _ ▸ heq).2
        refine ⟨[], y :: ys, by rw [← hx]; rfl, by simp, ?_⟩
        intro t ht
        rcases List.mem_cons.mp ht with rfl | ht
        · exact (le_of_eq (congrArg f hx.symm)).trans (not_lt.mp h)
        · exact hle t (hys ▸ ht)
      | cons a l1t =>
        simp only [List.cons_append] at heq
        have hxa : x = a := (List.cons.injEq _ _ _ _ ▸ heq).1
        have hys : ys = l1t ++ runMin f x ys :: l2 := (List.cons.injEq _ _ _ _ ▸ heq).2
        have hxlt : f (runMin f x ys) < f x := hxa ▸ hlt a (List.mem_cons_self _ _)
        refine ⟨x :: y :: l1t, l2, ?_, ?_, hle⟩
        · rw [List.cons_append, List.cons_append, ← hys]
        · intro t ht
          rcases List.mem_cons.mp ht with rfl | ht
          · exact hxlt
          rcases List.mem_cons.mp ht with rfl | ht
          · exact lt_of_lt_of_le hxlt (not_lt.mp h)
          · exact hlt t (List.mem_cons_of_mem _ ht)

/-- C9: `max`, `min`, `first`, `last` all return the absent sentinel on the
empty sequence; on a non-empty sequence `max(key)` and `min(key)` return a
whole item of the sequence whose field value is maximal resp. minimal. -/
theorem empty_sentinels_and_extremal_items [LinearOrder β] (f : α → β)
    (S : List α) (h : S ≠ []) :
    maxQ f ([] : List α) = none ∧ minQ f ([] : List α) = none ∧
    firstQ ([] : List α) = none ∧ lastQ ([] : List α) = none ∧
    (∃ m, maxQ f S = some m ∧ m ∈ S ∧ ∀ x ∈ S, f x ≤ f m) ∧
    (∃ m, minQ f S = some m ∧ m ∈ S ∧ ∀ x ∈ S, f m ≤ f x) := by
  obtain ⟨x, xs, rfl⟩ := List.exists_cons_of_ne_nil h
  refine ⟨rfl, rfl, rfl, rfl, ?_, ?_⟩
  · obtain ⟨l1, l2, heq, hlt, hle⟩ := runMax_decomp f xs x
    refine ⟨runMax f x xs, maxQ_cons f x xs, ?_, ?_⟩
    · rw [heq]
      exact List.mem_append_right _ (List.mem_cons_self _ _)
    · intro t ht
      rw [heq] at ht
      rcases List.mem_append.mp ht with h1 | h2
      · exact (hlt t h1).le
      · rcases List.mem_cons.mp h2 with rfl | h2
        · exact le_refl _
        · exact hle t h2
  · obtain ⟨l1, l2, heq, hlt, hle⟩ := runMin_decomp f xs x
    refine ⟨runMin f x xs, minQ_cons f x xs, ?_, ?_⟩
    · rw [heq]
      exact List.mem_append_right _ (List.mem_cons_self _ _)
    · intro t ht
      rw [heq] at ht
      rcases List.mem_append.mp ht with h1 | h2
      · exact (hlt t h1).le
      · rcases List.mem_cons.mp h2 with rfl | h2
        · exact le_refl _
        · exact hle t h2

/-- Witness for `empty_sentinels_and_extremal_items` on ages 30, 25, 35. -/
theorem empty_sentinels_and_extremal_items_witness :
    ∃ m, maxQ AgeRec.age [⟨30⟩, ⟨25⟩, ⟨35⟩] = some m ∧
      m ∈ [(⟨30⟩ : AgeRec), ⟨25⟩, ⟨35⟩] ∧
      ∀ x ∈ [(⟨30⟩ : AgeRec), ⟨25⟩, ⟨35⟩], AgeRec.age x ≤ AgeRec.age m :=
  (empty_sentinels_and_extremal_items AgeRec.age [⟨30⟩, ⟨25⟩, ⟨35⟩]
    (by decide)).2.2.2.2.1

/-- C10: on a non-empty sequence `max(key)` returns the earliest item
attaining the maximal field value (later items replace the candidate only
on a strictly greater value), and `min(key)` the earliest item attaining
the minimal one. -/
theorem extremal_earliest_tiebreak [LinearOrder β] (f : α → β)
    (S : List α) (h : S ≠ []) :
    (∃ m l1 l2, maxQ f S = some m ∧ S = l1 ++ m :: l2 ∧
      (∀ y ∈ l1, f y < f m) ∧ (∀ y ∈ l2, f y ≤ f m)) ∧
    (∃ m l1 l2, minQ f S = some m ∧ S = l1 ++ m :: l2 ∧
      (∀ y ∈ l1, f m < f y) ∧ (∀ y ∈ l2, f m ≤ f y)) := by
  obtain ⟨x, xs, rfl⟩ := List.exists_cons_of_ne_nil h
  constructor
  · obtain ⟨l1, l2, heq, hlt, hle⟩ := runMax_decomp f xs x
    exact ⟨runMax f x xs, l1, l2, maxQ_cons f x xs, heq, hlt, hle⟩
  · obtain ⟨l1, l2, heq, hlt, hle⟩ := runMin_decomp f xs x
    exact ⟨runMin f x xs, l1, l2, minQ_cons f x xs, heq, hlt, hle⟩

/-- Witness for `extremal_earliest_tiebreak` on ages 30, 35, 25, 35 (the
maximum 35 is attained twice; the decomposition pins the earliest one). -/
theorem extremal_earliest_tiebreak_witness :
    ∃ m l1 l2, maxQ AgeRec.age [⟨30⟩, ⟨35⟩, ⟨25⟩, ⟨35⟩] = some m ∧
      [(⟨30⟩ : AgeRec), ⟨35⟩, ⟨25⟩, ⟨35⟩] = l1 ++ m :: l2 ∧
      (∀ y ∈ l1, AgeRec.age y < AgeRec.age m) ∧
      (∀ y ∈ l2, AgeRec.age y ≤ AgeRec.age m) :=
  (extremal_earliest_tiebreak AgeRec.age [⟨30⟩, ⟨35⟩, ⟨25⟩, ⟨35⟩] (by decide)).1

lemma mapGet_nil [DecidableEq κ] (k : κ) : mapGet k ([] : List (κ × υ)) = none := rfl

lemma mapGet_cons [DecidableEq κ] (k a : κ) (b : υ) (m : List (κ × υ)) :
    mapGet k ((a, b) :: m) = if a = k then some b else mapGet k m := by
  by_cases h : a = k
  · simp [mapGet, List.find?_cons_of_pos, h]
  · simp [mapGet, List.find?_cons_of_neg, h]

lemma mapGet_buildLookup_gen [DecidableEq κ] (gk : υ → κ) (k : κ) :
    ∀ (R : List υ) (acc : List (κ × υ)),
      mapGet k (R.foldl (fun m u => mapSet (gk u) u m) acc) =
        (R.reverse.find? (fun u => decide (gk u = k))).or (mapGet k acc)
  | [], acc => by simp
  | u :: R, acc => by
    rw [List.foldl_cons, mapGet_buildLookup_gen gk k R (mapSet (gk u) u acc)]
    have hset : ∀ m : List (κ × υ),
        mapGet k (mapSet (gk u) u m) = if gk u = k then some u else mapGet k m := by
      intro m
      induction m with
      | nil => by_cases h : gk u = k <;> simp [mapSet, mapGet_cons, mapGet_nil, h]
      | cons e rest ih =>
        obtain ⟨k2, v2⟩ := e
        by_cases h2 : k2 = gk u
        · simp only [mapSet, if_pos h2, mapGet_cons]
          by_cases h : gk u = k
          · simp [h]
          · have hk2 : ¬ k2 = k := fun e => h (h2.symm.trans e)
            simp [h, hk2]
        · simp only [mapSet, if_neg h2, mapGet_cons, ih]
          by_cases hk2 : k2 = k
          · have h : ¬ gk u = k := fun e => h2 (hk2.trans e.symm)
            simp [hk2, h]
          · simp [hk2]
    rw [hset, List.reverse_cons, List.find?_append]
    cases hf : List.find? (fun u => decide (gk u = k)) R.reverse with
    | none =>
      by_cases h : gk u = k <;> simp [hf, List.find?_cons, h, Option.or]
    | some w => simp [hf, Option.or]

lemma mapGet_buildLookup [DecidableEq κ] (gk : υ → κ) (R : List υ) (k : κ) :
    mapGet k (buildLookup gk R) = R.reverse.find? (fun u => decide (gk u = k)) := by
  rw [buildLookup, mapGet_buildLookup_gen gk k R [], mapGet_nil, Option.or_none]

/-- C1: the lookup built by `join` maps every key to the last right-side
item carrying it (last-write-wins), and the join emits
`resultSelector(item, matchedOtherItem)` precisely for the left items whose
key is present, in left-sequence order (non-matching left items dropped). -/
theorem join_inner_equi_last_write_wins [DecidableEq κ] (fk : α → κ) (gk : υ → κ)
    (res : α → υ → γ) (S : List α) (R : List υ) :
    (∀ k, mapGet k (buildLookup gk R) =
      R.reverse.find? (fun u => decide (gk u = k))) ∧
    joinSeq fk gk res S R =
      S.filterMap
        (fun t => (R.reverse.find? (fun u => decide (gk u = fk t))).map (res t)) := by
  refine ⟨fun k => mapGet_buildLookup gk R k, ?_⟩
  rw [joinSeq, List.filterMap_map]
  apply List.filterMap_congr
  intro t _
  simp [mapGet_buildLookup]

lemma toGroupStep_eq_groupUpd [DecidableEq κ] (key : κ) (item : α) :
    ∀ m : List (κ × List α),
      mapSet key (((mapGet key m).getD []) ++ [item]) m = groupUpd key item m
  | [] => by simp [mapSet, mapGet_nil, groupUpd]
  | (k, g) :: rest => by
    by_cases h : k = key
    · subst h
      simp [mapSet, mapGet_cons, groupUpd]
    · have hk : ¬ (k = key) := h
      simp only [mapGet_cons, if_neg hk, mapSet, groupUpd,
        toGroupStep_eq_groupUpd key item rest]

/-- C3: `toGroup(keySelector, groupSelector)` performs exactly the
partitioning of `groupBy`: same groups, same per-group item order, same
first-seen emission order, with each record's group field computed by
`groupSelector(key, itemsInGroup)` (the deferred wrapper resolves
synchronously and is modelled as the identity). -/
theorem toGroup_same_partition_as_groupBy [DecidableEq κ] (f : α → κ)
    (g : κ → List α → γ) (S : List α) :
    toGroupSeq f g S = (groupBySeq f S).map (fun e => (e.1, g e.1 e.2)) := by
  have hstep :
      (fun (m : List (κ × List α)) (item : α) =>
        mapSet (f item) (((mapGet (f item) m).getD []) ++ [item]) m) =
      fun (m : List (κ × List α)) (item : α) => groupUpd (f item) item m := by
    funext m item
    exact toGroupStep_eq_groupUpd (f item) item m
  rw [toGroupSeq, toGroupMap, hstep, groupBySeq]

lemma mem_firstSeen [DecidableEq κ] (k : κ) :
    ∀ l : List κ, k ∈ firstSeen l ↔ k ∈ l
  | [] => Iff.rfl
  | a :: l => by
    by_cases h : k = a
    · subst h
      simp [firstSeen]
    · simp [firstSeen, List.mem_filter, h, mem_firstSeen k l]

lemma nodup_firstSeen [DecidableEq κ] : ∀ l : List κ, (firstSeen l).Nodup
  | [] => List.nodup_nil
  | a :: l => by
    simp only [firstSeen]
    refine List.Nodup.cons ?_ ((nodup_firstSeen l).filter _)
    intro hmem
    have := (List.mem_filter.mp hmem).2
    simp at this

lemma firstSeen_cons [DecidableEq κ] (a : κ) (l : List κ) :
    firstSeen (a :: l) = a :: (firstSeen l).filter (fun k2 => decide (k2 ≠ a)) := rfl

lemma groupUpd_cons [DecidableEq κ] (key k : κ) (item : α) (g : List α)
    (rest : List (κ × List α)) :
    groupUpd key item ((k, g) :: rest) =
      if k = key then (k, g ++ [item]) :: rest else (k, g) :: groupUpd key item rest := rfl

lemma firstSeen_append_singleton [DecidableEq κ] (k : κ) :
    ∀ l : List κ,
      firstSeen (l ++ [k]) = if k ∈ l then firstSeen l else firstSeen l ++ [k]
  | [] => by simp [firstSeen]
  | a :: l => by
    have hrec := firstSeen_append_singleton k l
    by_cases hka : k = a
    · subst hka
      rw [if_pos (List.mem_cons_self k l), List.cons_append,
        firstSeen_cons k (l ++ [k]), hrec, firstSeen_cons k l]
      by_cases hk : k ∈ l
      · rw [if_pos hk]
      · rw [if_neg hk, List.filter_append]
        simp
    · by_cases hk : k ∈ l
      · rw [if_pos (List.mem_cons_of_mem a hk), List.cons_append,
          firstSeen_cons a (l ++ [k]), hrec, if_pos hk, firstSeen_cons a l]
      · have hnot : k ∉ a :: l := by
          intro hc
          rcases List.mem_cons.mp hc with e | e
          · exact hka e
          · exact hk e
        rw [if_neg hnot, List.cons_append, firstSeen_cons a (l ++ [k]), hrec,
          if_neg hk, List.filter_append, firstSeen_cons a l, List.cons_append]
        simp [hka]

lemma groupUpd_map_not_mem [DecidableEq κ] (key : κ) (item : α) (h : κ → List α) :
    ∀ ks : List κ, key ∉ ks →
      groupUpd key item (ks.map (fun k => (k, h k))) =
        ks.map (fun k => (k, h k)) ++ [(key, [item])]
  | [], _ => rfl
  | a :: ks, hmem => by
    have ha : ¬ (a = key) := by
      intro e
      exact hmem (by rw [e]; exact List.mem_cons_self _ _)
    simp only [List.map_cons, groupUpd, if_neg ha, List.cons_append]
    rw [groupUpd_map_not_mem key item h ks
      (fun hk => hmem (List.mem_cons_of_mem _ hk))]

lemma groupUpd_map_mem [DecidableEq κ] (key : κ) (item : α) (h : κ → List α) :
    ∀ ks : List κ, ks.Nodup → key ∈ ks →
      groupUpd key item (ks.map (fun k => (k, h k))) =
        ks.map (fun k => (k, if k = key then h k ++ [item] else h k))
  | [], _, hmem => absurd hmem (List.not_mem_nil key)
  | a :: ks, hnd, hmem => by
    by_cases ha : a = key
    · subst ha
      rw [List.map_cons, groupUpd_cons, if_pos rfl, List.map_cons, if_pos rfl]
      congr 1
      apply List.map_congr_left
      intro k hk
      have hka : ¬ (k = a) := by
        intro e
        exact (List.nodup_cons.mp hnd).1 (e ▸ hk)
      rw [if_neg hka]
    · have hks : key ∈ ks := by
        rcases List.mem_cons.mp hmem with e | e
        · exact absurd e.symm ha
        · exact e
      rw [List.map_cons, groupUpd_cons, if_neg ha,
        groupUpd_map_mem key item h ks (List.nodup_cons.mp hnd).2 hks,
        List.map_cons, if_neg ha]

lemma canonGroups_append_singleton [DecidableEq κ] (f : α → κ) (S : List α) (x : α) :
    canonGroups f (S ++ [x]) = groupUpd (f x) x (canonGroups f S) := by
  unfold canonGroups
  rw [List.map_append, List.map_singleton, firstSeen_append_singleton]
  by_cases hmem : f x ∈ S.map f
  · rw [if_pos hmem,
      groupUpd_map_mem (f x) x _ _ (nodup_firstSeen _) ((mem_firstSeen _ _).mpr hmem)]
    apply List.map_congr_left
    intro k _
    by_cases hke : k = f x
    · subst hke
      simp [List.filter_append]
    · have hxk : ¬ (f x = k) := fun e => hke e.symm
      simp [List.filter_append, hke, hxk]
  · rw [if_neg hmem,
      groupUpd_map_not_mem (f x) x _ _ (fun hc => hmem ((mem_firstSeen _ _).mp hc))]
    rw [List.map_append, List.map_singleton]
    congr 1
    · apply List.map_congr_left
      intro k hk
      have hxk : ¬ (f x = k) := by
        intro e
        exact hmem (e ▸ (mem_firstSeen _ _).mp hk)
      simp [List.filter_append, hxk]
    · have hnil : S.filter (fun y => decide (f y = f x)) = [] := by
        rw [List.filter_eq_nil_iff]
        intro a haS hpa
        exact hmem (by simp at hpa; exact hpa ▸ List.mem_map_of_mem f haS)
      simp [List.filter_append, hnil]

lemma groupBy_foldl_canon [DecidableEq κ] (f : α → κ) :
    ∀ (S P : List α),
      S.foldl (fun gs item => groupUpd (f item) item gs) (canonGroups f P) =
        canonGroups f (P ++ S)
  | [], P => by simp
  | x :: S, P => by
    rw [List.foldl_cons, ← canonGroups_append_singleton f P x,
      groupBy_foldl_canon f S (P ++ [x]), List.append_assoc, List.singleton_append]

lemma groupUpd_flatten_perm [DecidableEq κ] (key : κ) (item : α) :
    ∀ gs : List (κ × List α),
      List.Perm (((groupUpd key item gs).map Prod.snd).flatten)
        (((gs.map Prod.snd).flatten) ++ [item])
  | [] => by simp [groupUpd]
  | (k, g) :: rest => by
    by_cases h : k = key
    · simp only [groupUpd, if_pos h, List.map_cons, List.flatten_cons]
      rw [List.append_assoc, List.append_assoc]
      exact List.Perm.append_left g List.perm_append_comm
    · simp only [groupUpd, if_neg h, List.map_cons, List.flatten_cons]
      rw [List.append_assoc]
      exact List.Perm.append_left g (groupUpd_flatten_perm key item rest)

lemma groupBy_flatten_perm_aux [DecidableEq κ] (f : α → κ) :
    ∀ (S : List α) (acc : List (κ × List α)),
      List.Perm
        (((S.foldl (fun gs item => groupUpd (f item) item gs) acc).map Prod.snd).flatten)
        (((acc.map Prod.snd).flatten) ++ S)
  | [], acc => by simp
  | x :: S, acc => by
    rw [List.foldl_cons]
    refine (groupBy_flatten_perm_aux f S (groupUpd (f x) x acc)).trans ?_
    refine ((groupUpd_flatten_perm (f x) x acc).append_right S).trans ?_
    rw [List.append_assoc, List.singleton_append]

/-- C2: `groupBy(f)` is an exact partition: it equals the canonical list of
one record per distinct key in first-seen order whose group is the
subsequence of items with that key (so every item lands in exactly one
group and intra-group order is source order), the emitted keys are
pairwise distinct, and concatenating the groups permutes the input. -/
theorem groupBy_exact_partition [DecidableEq κ] (f : α → κ) (S : List α) :
    groupBySeq f S = canonGroups f S ∧
    ((groupBySeq f S).map Prod.fst).Nodup ∧
    List.Perm (((groupBySeq f S).map Prod.snd).flatten) S := by
  have h1 : groupBySeq f S = canonGroups f S := groupBy_foldl_canon f S []
  refine ⟨h1, ?_, ?_⟩
  · rw [h1]
    have : (canonGroups f S).map Prod.fst = firstSeen (S.map f) := by
      rw [canonGroups, List.map_map]
      have h2 : (Prod.fst ∘ fun k => (k, S.filter (fun x => decide (f x = k)))) =
          fun k : κ => k := rfl
      rw [h2]
      exact List.map_id _
    rw [this]
    exact nodup_firstSeen _
  · simpa using groupBy_flatten_perm_aux f S []

lemma readItems_newEngine_fresh (s : Heap α) (xs : List α) :
    readItems (newEngine s xs).1 (newEngine s xs).2 = xs := by
  simp [readItems, newEngine, Heap.size, List.getElem?_concat_length]

lemma readItems_newEngine_old (s : Heap α) (xs : List α) (h : Nat)
    (hh : h < List.length s) :
    readItems (newEngine s xs).1 h = readItems s h := by
  simp [readItems, newEngine, List.getElem?_append_left hh]

lemma newEngine_fresh_ne (s : Heap α) (xs : List α) (h : Nat)
    (hh : h < List.length s) :
    (newEngine s xs).2 ≠ h := by
  simp only [newEngine, Heap.size]
  omega

/-- C5: `from` overwrites the receiver's wrapped sequence in place and
returns the very same engine handle, leaving every other instance intact;
`select`, `where`, `orderBy`, `skip`, `take`, `page`, `groupBy` and `join`
each return a freshly allocated engine holding the computed sequence and
leave the original engine's sequence unchanged, so the original stays
reusable for branching further chains. -/
theorem from_only_mutator [LinearOrder β] [DecidableEq κ]
    (s : Heap α) (h : Nat) (hh : h < List.length s) (xs : List α)
    (t1 : Heap γ) (proj : α → γ) (p : α → Bool) (f : α → β) (descending : Bool)
    (c i n : Nat) (fg : α → κ) (tg : Heap (κ × List α))
    (tj : Heap γ) (fk : α → κ) (gk : υ → κ) (res : α → υ → γ) (others : List υ) :
    ((fromOp s h xs).2 = h ∧
      readItems (fromOp s h xs).1 h = xs ∧
      ∀ h2, h2 ≠ h → readItems (fromOp s h xs).1 h2 = readItems s h2) ∧
    ((selectOp s h t1 proj).2 = List.length t1 ∧
      readItems (selectOp s h t1 proj).1 (selectOp s h t1 proj).2 =
        selectSeq proj (readItems s h)) ∧
    ((whereOp s h p).2 = List.length s ∧ (whereOp s h p).2 ≠ h ∧
      readItems (whereOp s h p).1 h = readItems s h ∧
      readItems (whereOp s h p).1 (whereOp s h p).2 = whereSeq p (readItems s h)) ∧
    ((orderByOp s h f descending).2 = List.length s ∧
      (orderByOp s h f descending).2 ≠ h ∧
      readItems (orderByOp s h f descending).1 h = readItems s h ∧
      readItems (orderByOp s h f descending).1 (orderByOp s h f descending).2 =
        orderBySeq f descending (readItems s h)) ∧
    ((skipOp s h c).2 = List.length s ∧ (skipOp s h c).2 ≠ h ∧
      readItems (skipOp s h c).1 h = readItems s h ∧
      readItems (skipOp s h c).1 (skipOp s h c).2 = skipSeq c (readItems s h)) ∧
    ((takeOp s h c).2 = List.length s ∧ (takeOp s h c).2 ≠ h ∧
      readItems (takeOp s h c).1 h = readItems s h ∧
      readItems (takeOp s h c).1 (takeOp s h c).2 = takeSeq c (readItems s h)) ∧
    ((pageOp s h i n).2 = List.length s + 1 ∧ (pageOp s h i n).2 ≠ h ∧
      readItems (pageOp s h i n).1 h = readItems s h ∧
      readItems (pageOp s h i n).1 (pageOp s h i n).2 =
        pageSeq i n (readItems s h)) ∧
    ((groupByOp s h tg fg).2 = List.length tg ∧
      readItems (groupByOp s h tg fg).1 (groupByOp s h tg fg).2 =
        groupBySeq fg (readItems s h)) ∧
    ((joinOp s h tj fk gk res others).2 = List.length tj ∧
      readItems (joinOp s h tj fk gk res others).1
        (joinOp s h tj fk gk res others).2 =
        joinSeq fk gk res (readItems s h) others) := by
  refine ⟨⟨rfl, ?_, ?_⟩,
    ⟨rfl, readItems_newEngine_fresh _ _⟩,
    ⟨rfl, newEngine_fresh_ne s _ h hh, readItems_newEngine_old s _ h hh,
      readItems_newEngine_fresh _ _⟩,
    ⟨rfl, newEngine_fresh_ne s _ h hh, readItems_newEngine_old s _ h hh,
      readItems_newEngine_fresh _ _⟩,
    ⟨rfl, newEngine_fresh_ne s _ h hh, readItems_newEngine_old s _ h hh,
      readItems_newEngine_fresh _ _⟩,
    ⟨rfl, newEngine_fresh_ne s _ h hh, readItems_newEngine_old s _ h hh,
      readItems_newEngine_fresh _ _⟩,
    ⟨?_, ?_, ?_, ?_⟩,
    ⟨rfl, readItems_newEngine_fresh _ _⟩,
    ⟨rfl, readItems_newEngine_fresh _ _⟩⟩
  · simp [fromOp, readItems, List.getElem?_set_self hh]
  · intro h2 hne
    simp [fromOp, readItems, List.getElem?_set_ne (Ne.symm hne)]
  · simp [pageOp, takeOp, skipOp, newEngine, Heap.size]
  · simp only [pageOp, takeOp, skipOp, newEngine, Heap.size, List.append_eq,
      List.length_append]
    omega
  · simp only [pageOp, takeOp, skipOp]
    rw [readItems_newEngine_old _ _ h (by simp [newEngine]; omega),
      readItems_newEngine_old _ _ h hh]
  · simp only [pageOp, takeOp, skipOp]
    rw [readItems_newEngine_fresh, readItems_newEngine_fresh]
    rfl

/-- Witness for `from_only_mutator` on the one-engine store `[[1, 2]]`. -/
theorem from_only_mutator_witness :
    (fromOp ([[1, 2]] : Heap Int) 0 [5]).2 = 0 ∧
    readItems (fromOp ([[1, 2]] : Heap Int) 0 [5]).1 0 = [5] ∧
    (whereOp ([[1, 2]] : Heap Int) 0 (fun _ => true)).2 ≠ 0 := by
  have H := from_only_mutator ([[1, 2]] : Heap Int) 0 (by decide) [5]
    ([] : Heap Int) (fun x => x) (fun _ => true) (id : Int → Int) false
    1 1 1 (id : Int → Int) ([] : Heap (Int × List Int))
    ([] : Heap Int) (id : Int → Int) (id : Int → Int)
    (fun a b => a + b) ([4] : List Int)
  exact ⟨H.1.1, H.1.2.1, H.2.2.1.2.1⟩

end DataSmith
